import Mathlib

/-!
# Verification of the mxos-v4 memory subsystem

Shallow embedding of the memory-management core of the mxos-v4 kernel:
the physical-frame buddy allocator (`src/kernel/src/memory/pmm.rs`),
the best-fit virtual-range trees of the VMM (`src/kernel/src/memory/vmm.rs`),
and parts of the heap allocator (`src/kernel/src/memory/malloc/mod.rs`).

Machine integers (`usize`/`u64`) are modelled as `Nat`; wrapping arithmetic
is made explicit (reduction modulo `2 ^ 64`) at the few places where the
Rust code can actually overflow or underflow and that matters for a claim.
-/

namespace Pmm

/-- `ORDERS = 12..22` in the source: buddy orders 12 (4 KiB) to 21 (2 MiB). -/
def ORDER_MIN : Nat := 12

/-- Last order handled by the allocator (`ORDERS.end - 1`). -/
def ORDER_MAX : Nat := 21

/-- State of `BuddyAllocator`: per order a singly linked free list (the list
holds the *virtual* addresses `phys_offset + phys` exactly as the intrusive
`FreeList` nodes do), and per order the pair bitmap, represented as the set
of bit indices whose value is 1 (all bits start at 0 after `new`). -/
structure BuddyState where
  freeLists : Nat → List Nat
  maps : Nat → List Nat
  physOffset : Nat

/-- A freshly constructed allocator: `new` zero-fills the buddy map and all
free lists are empty. -/
def BuddyState.init (physOffset : Nat) : BuddyState :=
  ⟨fun _ => [], fun _ => [], physOffset⟩

/-- Replace the free list of one order. -/
def setFreeList (st : BuddyState) (o : Nat) (l : List Nat) : BuddyState :=
  { st with freeLists := fun o' => if o' = o then l else st.freeLists o' }

/-- Replace the bitmap of one order. -/
def setMap (st : BuddyState) (o : Nat) (l : List Nat) : BuddyState :=
  { st with maps := fun o' => if o' = o then l else st.maps o' }

/-- `Buddy::is_chunk_pair_different` / `Bitmap::get`. -/
def getBit (st : BuddyState) (o bit : Nat) : Bool :=
  decide (bit ∈ st.maps o)

/-- `Buddy::toggle_chunk_pair` / `Bitmap::toggle`. -/
def toggleBit (st : BuddyState) (o bit : Nat) : BuddyState :=
  setMap st o (if bit ∈ st.maps o then (st.maps o).erase bit else bit :: st.maps o)

/-- `Buddy::push_free_list`: a null virtual address is silently dropped
(`NonNull::new(..) else return`); otherwise the address becomes the new head. -/
def pushFreeList (st : BuddyState) (o virt : Nat) : BuddyState :=
  if virt = 0 then st else setFreeList st o (virt :: st.freeLists o)

/-- `Buddy::pop_free_list`: pop the head of the intrusive list, if any. -/
def popFreeList (st : BuddyState) (o : Nat) : Option (Nat × BuddyState) :=
  match st.freeLists o with
  | [] => none
  | v :: rest => some (v, setFreeList st o rest)

/-- The loop of `BuddyAllocator::free`: iterate over
`(order..).zip(&mut self.buddies[order..])` (the `Nat` argument counts the
remaining buddies, `22 - order` at the top call).  Each step halves `pair`,
toggles the pair bit, and if the two chunks of the pair now differ pushes
`phys_offset + addr` onto that order's free list; when the buddies run out,
push onto the last (order-21) list. -/
def freeLoop (st : BuddyState) (addr o pair : Nat) : Nat → BuddyState
  | 0 => pushFreeList st ORDER_MAX (st.physOffset + addr)
  | n + 1 =>
    let pair' := pair / 2
    let st' := toggleBit st o pair'
    if getBit st' o pair' then pushFreeList st' o (st'.physOffset + addr)
    else freeLoop st' addr (o + 1) pair' n

/-- `BuddyAllocator::free(order, addr)` (the `assert!(addr.is_aligned ..)` is
a precondition; all calls below satisfy it). -/
def free (st : BuddyState) (order addr : Nat) : BuddyState :=
  freeLoop st addr order (addr >>> order) (22 - order)

/-- The search loop of `BuddyAllocator::alloc`: walk the orders upward
(`Nat` argument counts remaining orders), popping the first non-empty free
list; returns the order found, the popped virtual address and the new state. -/
def allocLoop (st : BuddyState) (o : Nat) : Nat → Option (Nat × Nat × BuddyState)
  | 0 => none
  | n + 1 =>
    match popFreeList st o with
    | some (v, st') => some (o, v, st')
    | none => allocLoop st (o + 1) n

/-- The toggle run at the end of `BuddyAllocator::alloc`: for each
`buddy_order` in `order..=found_order` toggle the pair bit
`addr >> (buddy_order + 1)`. -/
def toggleRun (st : BuddyState) (addr o : Nat) : Nat → BuddyState
  | 0 => st
  | n + 1 => toggleRun (toggleBit st o (addr >>> (o + 1))) addr (o + 1) n

/-- Body of `BuddyAllocator::alloc(order)` after the range assertion:
returns the physical address (popped virtual address minus `phys_offset`)
and the new state; `(none, st)` when every list at order ≥ `order` is empty. -/
def allocUnchecked (st : BuddyState) (order : Nat) : Option Nat × BuddyState :=
  match allocLoop st order (22 - order) with
  | none => (none, st)
  | some (fo, v, st') =>
    let addr := v - st.physOffset
    (some addr, toggleRun st' addr order (fo + 1 - order))

/-- `BuddyAllocator::alloc(order)` including the
`assert!(ORDERS.contains(&order))`: `none` models the panic. -/
def alloc (st : BuddyState) (order : Nat) : Option (Option Nat × BuddyState) :=
  if 12 ≤ order ∧ order < 22 then some (allocUnchecked st order) else none

/-- The per-order loop of `BuddyAllocator::free_region`: halve `start` and
`end`, stop when `end ≤ start`, otherwise peel one odd chunk off each end and
continue at the next order.  Returns the state together with the final
`start`/`end` chunk indices. -/
def freeRegionLoop (st : BuddyState) (o s e : Nat) : Nat → BuddyState × Nat × Nat
  | 0 => (st, s, e)
  | n + 1 =>
    let s' := s / 2
    let e' := e / 2
    if e' ≤ s' then (st, s', e')
    else
      let p1 := if s' % 2 = 1 then (free st o (s' <<< o), s' + 1) else (st, s')
      let p2 := if e' % 2 = 1 then (free p1.1 o ((e' - 1) <<< o), e' - 1) else (p1.1, e')
      freeRegionLoop p2.1 (o + 1) p1.2 p2.2 n

/-- `BuddyAllocator::free_region(range)`: the endpoints are shifted by
`ORDERS.start - 1 = 11`, the orders 12..21 are walked peeling odd ends, and
the remaining chunks are all freed at the top order. -/
def freeRegion (st : BuddyState) (rstart rend : Nat) : BuddyState :=
  let s := rstart >>> 11
  let e := rend >>> 11
  let r := freeRegionLoop st 12 s e 10
  (List.range' r.2.1 (r.2.2 - r.2.1)).foldl (fun st i => free st 21 (i <<< 21)) r.1

end Pmm

namespace Vmm

/-- `Size4KiB::SIZE`. -/
def PAGE_SIZE : Nat := 4096

/-- `Size2MiB::SIZE`. -/
def HUGE_PAGE_SIZE : Nat := 0x200000

/-- One past the largest `usize`/`u64` value. -/
def USIZE : Nat := 2 ^ 64

/-- Wrapping `usize` addition. -/
def wadd (a b : Nat) : Nat := (a + b) % USIZE

/-- Wrapping `usize` subtraction (for arguments below `USIZE`). -/
def wsub (a b : Nat) : Nat := (a + (USIZE - b % USIZE)) % USIZE

/-- `size + PAGE_SIZE - 1 & !(PAGE_SIZE - 1)` with `usize` wrapping. -/
def pageRoundUp (size : Nat) : Nat :=
  let t := wadd size (PAGE_SIZE - 1)
  t - t % PAGE_SIZE

/-- `addr & !(PAGE_SIZE - 1)`. -/
def pageRoundDown (addr : Nat) : Nat := addr - addr % PAGE_SIZE

/-- `a + align - 1 & !(align - 1)` with `usize` wrapping; `align` is a power
of two, for which the bit mask equals subtracting the remainder. -/
def alignUpW (a align : Nat) : Nat :=
  let t := wadd a (align - 1)
  t - t % align

/-- The coordinated pair `addr_size_tree` / `size_addr_tree` of
`TreeBestFitAlloc`, under the representation invariant that the two maps hold
one set of free ranges: a single list of `(addr, size)` pairs kept sorted by
address. -/
abbrev Ranges := List (Nat × Nat)

/-- `size_addr_tree.range(SizeAddr::new(free_size, 0)..).next()`: the
`(size, addr)`-lexicographically least entry whose size is at least
`freeSize`. -/
def bestFit : Ranges → Nat → Option (Nat × Nat)
  | [], _ => none
  | p :: l, freeSize =>
    match bestFit l freeSize with
    | none => if p.2 < freeSize then none else some p
    | some q =>
      if p.2 < freeSize then some q
      else if p.2 < q.2 ∨ (p.2 = q.2 ∧ p.1 < q.1) then some p else some q

/-- Remove the entry with the given address (`addr_size_tree.remove` together
with the matching `size_addr_tree.remove`). -/
def removeAddr : Ranges → Nat → Ranges
  | [], _ => []
  | p :: l, a => if p.1 = a then l else p :: removeAddr l a

/-- Insert an entry, keeping the list sorted by address (`insert` into both
maps). -/
def insertR : Ranges → Nat × Nat → Ranges
  | [], q => [q]
  | p :: l, q => if q.1 < p.1 then q :: p :: l else p :: insertR l q

/-- `addr_size_tree.get(&a)` / `remove_entry(&a)` lookup. -/
def lookupAddr : Ranges → Nat → Option Nat
  | [], _ => none
  | p :: l, a => if p.1 = a then some p.2 else lookupAddr l a

/-- `addr_size_tree.range(..addr).next_back()`: the entry with the greatest
address below `addr` (on an address-sorted list, the last one below). -/
def lastBelow (l : Ranges) (a : Nat) : Option (Nat × Nat) :=
  (l.filter (fun p => p.1 < a)).getLast?

/-- `TreeBestFitAlloc::alloc(size, align_order)`: round the size up to
4 KiB, compute `align = max(1 << align_order, PAGE_SIZE)` and
`free_size = size.max(align) + align - PAGE_SIZE`; pick the best-fit entry;
split off the pre-padding (below the aligned address) and the post-padding,
reinserting whichever is non-empty; return the aligned `(addr, size)`. -/
def treeAlloc (l : Ranges) (size alignOrder : Nat) : Option ((Nat × Nat) × Ranges) :=
  let size := pageRoundUp size
  let align := max ((1 <<< alignOrder) % USIZE) PAGE_SIZE
  let freeSize := wsub (wadd (max size align) align) PAGE_SIZE
  match bestFit l freeSize with
  | none => none
  | some e =>
    let addr := alignUpW e.1 align
    let beforeSize := wsub addr e.1
    let l1 := removeAddr l e.1
    let l2 := if 0 < beforeSize then insertR l1 (e.1, beforeSize) else l1
    let afterSize := wsub (wsub e.2 beforeSize) size
    let l3 := if 0 < afterSize then insertR l2 (wadd addr size, afterSize) else l2
    some ((addr, size), l3)

/-- The left-coalescing step of `TreeBestFitAlloc::free` (lines 88-96): look
up the closest entry below `addr`; if it reaches `addr`
(`addr <= prev_addr + prev_size`), remove it and extend the freed range. -/
def freeMergeLeft (l : Ranges) (addr size : Nat) : Ranges × Nat × Nat :=
  match lastBelow l addr with
  | some p =>
    if addr ≤ wadd p.1 p.2 then
      (removeAddr l p.1, p.1, max p.2 (wadd (addr - p.1) size))
    else (l, addr, size)
  | none => (l, addr, size)

/-- The right-coalescing step of `TreeBestFitAlloc::free` (lines 100-106):
when `addr.checked_add(size)` succeeds and an entry starts exactly there,
remove it and add its size. -/
def freeMergeRight (l : Ranges) (addr size : Nat) : Ranges × Nat :=
  if addr + size < USIZE then
    match lookupAddr l (addr + size) with
    | some ns => (removeAddr l (addr + size), wadd size ns)
    | none => (l, size)
  else (l, size)

/-- `TreeBestFitAlloc::free(addr, size)`: round to page boundaries, coalesce
left, coalesce right, insert the result into both maps. -/
def treeFree (l : Ranges) (addr0 size0 : Nat) : Ranges :=
  let addr := pageRoundDown addr0
  let size := pageRoundUp size0
  let s1 := freeMergeLeft l addr size
  let s2 := freeMergeRight s1.1 s1.2.1 s1.2.2
  insertR s2.1 (s1.2.1, s2.2)

/-- Third unmap loop of `VirtualMemoryManager::free` (lines 293-301):
`while 0 < size` unmap one 4 KiB page, `addr += PAGE_SIZE`,
`size -= PAGE_SIZE`.  The model returns the final `size`; `none` marks the
point where the `usize` subtraction `size -= PAGE_SIZE` underflows. -/
def unmapLoop3 (addr size : Nat) : Option Nat :=
  if 0 < size then
    if size < PAGE_SIZE then none
    else unmapLoop3 (addr + PAGE_SIZE) (size - PAGE_SIZE)
  else some size
termination_by size
decreasing_by have h : PAGE_SIZE = 4096 := rfl; omega

/-- Second unmap loop (lines 284-292): `while HUGE_PAGE_SIZE <= size` unmap
one 2 MiB page; then fall through to the third loop. -/
def unmapLoop2 (addr size : Nat) : Option Nat :=
  if HUGE_PAGE_SIZE ≤ size then unmapLoop2 (addr + HUGE_PAGE_SIZE) (size - HUGE_PAGE_SIZE)
  else unmapLoop3 addr size
termination_by size
decreasing_by have h : HUGE_PAGE_SIZE = 2097152 := rfl; omega

/-- First unmap loop (lines 275-283): `while 0 < size && !addr.is_aligned
(HUGE_PAGE_SIZE)` unmap one 4 KiB page; then fall through to the second
loop.  `unmapLoop1 addr size` models the whole unmap phase of
`VirtualMemoryManager::free(addr, size)`. -/
def unmapLoop1 (addr size : Nat) : Option Nat :=
  if 0 < size ∧ addr % HUGE_PAGE_SIZE ≠ 0 then
    if size < PAGE_SIZE then none
    else unmapLoop1 (addr + PAGE_SIZE) (size - PAGE_SIZE)
  else unmapLoop2 addr size
termination_by size
decreasing_by have h : PAGE_SIZE = 4096 := rfl; omega

/-- The minimal entry size actually required by `TreeBestFitAlloc::alloc`
(line 53 of `vmm.rs`), written with exact (non-wrapping) arithmetic:
`size.max(align) + align - PAGE_SIZE` where `size` is the 4 KiB-rounded
request and `align = max(1 << align_order, PAGE_SIZE)`. -/
def allocThreshold (size alignOrder : Nat) : Nat :=
  max (pageRoundUp size) (max (2 ^ alignOrder) PAGE_SIZE)
    + max (2 ^ alignOrder) PAGE_SIZE - PAGE_SIZE

/-- A free address of the range set: lies inside some range of the list. -/
def memRanges (l : Ranges) (x : Nat) : Prop := ∃ p ∈ l, p.1 ≤ x ∧ x < p.1 + p.2

instance (l : Ranges) (x : Nat) : Decidable (memRanges l x) := by
  unfold memRanges; infer_instance

/-- The representation invariant of `TreeBestFitAlloc` stated by C6: the
entries are one set of pairwise disjoint, non-touching free ranges (sorted by
address with a gap between consecutive ranges), with positive sizes, each
contained in the `usize` address space. -/
def RangesWF (l : Ranges) : Prop :=
  List.Pairwise (fun p q : Nat × Nat => p.1 + p.2 < q.1) l ∧
    ∀ p ∈ l, 0 < p.2 ∧ p.2 < USIZE ∧ p.1 + p.2 ≤ USIZE

instance (l : Ranges) : Decidable (RangesWF l) := by
  unfold RangesWF; exact instDecidableAnd

/-- Page alignment of every range (addresses and sizes multiples of 4 KiB),
as holds for every range the VMM ever inserts. -/
def RangesAligned (l : Ranges) : Prop :=
  ∀ p ∈ l, PAGE_SIZE ∣ p.1 ∧ PAGE_SIZE ∣ p.2

instance (l : Ranges) : Decidable (RangesAligned l) := by
  unfold RangesAligned; infer_instance

end Vmm

namespace Malloc

/-- `SMALL_PAGE_SIZE = 64 KiB`. -/
def SMALL_PAGE_SIZE : Nat := 64 <<< 10

/-- `SEGMENT_SIZE = 4 MiB`. -/
def SEGMENT_SIZE : Nat := 4 <<< 20

/-- The 33 small block classes (8 B .. 8 KiB). -/
def SMALL_SIZE_CLASSES : List Nat :=
  [0x8, 0x10, 0x20, 0x30, 0x40, 0x50, 0x60, 0x70, 0x80, 0xA0, 0xC0, 0xE0, 0x100, 0x140, 0x180,
   0x1C0, 0x200, 0x280, 0x300, 0x380, 0x400, 0x500, 0x600, 0x700, 0x800, 0xA00, 0xC00, 0xE00,
   0x1000, 0x1400, 0x1800, 0x1C00, 0x2000]

/-- The 24 large block classes (10 KiB .. 512 KiB). -/
def LARGE_SIZE_CLASSES : List Nat :=
  [0x2800, 0x3000, 0x3800, 0x4000, 0x5000, 0x6000, 0x7000, 0x8000, 0xA000, 0xC000, 0xE000,
   0x10000, 0x14000, 0x18000, 0x1C000, 0x20000, 0x28000, 0x30000, 0x38000, 0x40000, 0x50000,
   0x60000, 0x70000, 0x80000]

/-- `LARGE_SIZE_CLASS_PAGE_STARTS[i]`: `SEGMENT_SIZE % cs`, replaced by `cs`
when the remainder is zero. -/
def LARGE_SIZE_CLASS_PAGE_STARTS (i : Nat) : Nat :=
  let cs := LARGE_SIZE_CLASSES.getD i 0
  if SEGMENT_SIZE % cs = 0 then cs else SEGMENT_SIZE % cs

/-- Fuel-indexed binary length: count halvings until zero.  The fuel (always
at least `n` at entry) only makes the recursion structural. -/
def bitLenGo : Nat → Nat → Nat
  | 0, _ => 0
  | fuel + 1, n => if n = 0 then 0 else bitLenGo fuel (n / 2) + 1

/-- `usize::BITS - size.leading_zeros()`: the binary bit length of `size`
(0 for 0, otherwise `log2 n + 1`, see `bitLength_eq_log2`). -/
def bitLength (n : Nat) : Nat := bitLenGo n n

/-- `size_class(size)` (lines 58-65 of `malloc/mod.rs`). -/
def size_class (size : Nat) : Nat :=
  if size ≤ 64 then
    [0, 0, 1, 2, 2, 3, 3, 4, 4].getD ((size + 7) >>> 3) 0
  else
    4 * bitLength size + ((size - 1) >>> (bitLength size - 3)) - 27

/-- The block size of a class: an index below 33 selects from the small
table, the rest from the large table (`SMALL_SIZE_CLASSES[class]` /
`LARGE_SIZE_CLASSES[class - 33]`). -/
def classSize (c : Nat) : Nat :=
  if c < SMALL_SIZE_CLASSES.length then SMALL_SIZE_CLASSES.getD c 0
  else LARGE_SIZE_CLASSES.getD (c - SMALL_SIZE_CLASSES.length) 0

/-- `layout.align_to(8).unwrap().pad_to_align().size()` — the padded size
computed at the top of both `alloc` and `dealloc` (lines 604 and 662):
raise the alignment to at least 8 and round the size up to a multiple of it. -/
def paddedSize (size align : Nat) : Nat :=
  (size + max align 8 - 1) / max align 8 * max align 8

/-- `<Allocator as GlobalAlloc>::dealloc` (lines 660-669), huge branch:
given whether `vmm.try_lock()` succeeded, the kernel free-range tree, and
the call's pointer and layout.  Returns the tree afterwards and whether
`VirtualMemoryManager::free` ran (the unmap loops run exactly when it does);
`none` models a layout of padded size at most 512 KiB, which takes the
thread-local path instead.  `dealloc` returns `()` either way: no error is
reported to the caller. -/
def deallocHuge (lockAcquired : Bool) (tree : Vmm.Ranges) (ptr size align : Nat) :
    Option (Vmm.Ranges × Bool) :=
  if LARGE_SIZE_CLASSES.getLastD 0 < paddedSize size align then
    some (if lockAcquired then (Vmm.treeFree tree ptr size, true) else (tree, false))
  else none

/-- The slice of VMM state `vmm.alloc` touches when the heap requests a
segment: the kernel free-range tree and the frame allocator. -/
structure VmmModel where
  kernelAlloc : Vmm.Ranges
  buddy : Pmm.BuddyState

/-- Third frame-mapping loop of `VirtualMemoryManager::alloc` (lines
242-247), fuel-indexed for computability: one order-12 frame per remaining
4 KiB page; `false` on frame-allocation failure (the `?` operator).  The
fuel only bounds the iteration count (each iteration consumes at least one
unit of `size`), it never alters the result when the loop is entered through
`vmmAllocLoop3`.  Page-table node frames allocated inside `map_to` are not
modelled. -/
def vmmAllocLoop3Go : Nat → Pmm.BuddyState → Nat → Bool × Pmm.BuddyState
  | 0, b, _ => (true, b)
  | fuel + 1, b, size =>
    if 0 < size then
      if size < Vmm.PAGE_SIZE then (false, b)
      else
        match Pmm.allocUnchecked b 12 with
        | (some _, b') => vmmAllocLoop3Go fuel b' (size - Vmm.PAGE_SIZE)
        | (none, b') => (false, b')
    else (true, b)

/-- Entry point of the third frame-mapping loop. -/
def vmmAllocLoop3 (b : Pmm.BuddyState) (size : Nat) : Bool × Pmm.BuddyState :=
  vmmAllocLoop3Go size b size

/-- Second frame-mapping loop (lines 236-241): one order-21 frame per 2 MiB,
then fall through to the third loop. -/
def vmmAllocLoop2Go : Nat → Pmm.BuddyState → Nat → Bool × Pmm.BuddyState
  | 0, b, size => vmmAllocLoop3 b size
  | fuel + 1, b, size =>
    if Vmm.HUGE_PAGE_SIZE ≤ size then
      match Pmm.allocUnchecked b 21 with
      | (some _, b') => vmmAllocLoop2Go fuel b' (size - Vmm.HUGE_PAGE_SIZE)
      | (none, b') => (false, b')
    else vmmAllocLoop3 b size

/-- Entry point of the second frame-mapping loop. -/
def vmmAllocLoop2 (b : Pmm.BuddyState) (size : Nat) : Bool × Pmm.BuddyState :=
  vmmAllocLoop2Go size b size

/-- First frame-mapping loop (lines 230-235): order-12 frames until `addr`
reaches a 2 MiB boundary, then fall through to the second loop. -/
def vmmAllocLoop1Go : Nat → Pmm.BuddyState → Nat → Nat → Bool × Pmm.BuddyState
  | 0, b, _, size => vmmAllocLoop2 b size
  | fuel + 1, b, addr, size =>
    if 0 < size ∧ addr % Vmm.HUGE_PAGE_SIZE ≠ 0 then
      if size < Vmm.PAGE_SIZE then (false, b)
      else
        match Pmm.allocUnchecked b 12 with
        | (some _, b') =>
          vmmAllocLoop1Go fuel b' (addr + Vmm.PAGE_SIZE) (size - Vmm.PAGE_SIZE)
        | (none, b') => (false, b')
    else vmmAllocLoop2 b size

/-- Entry point of the first frame-mapping loop. -/
def vmmAllocLoop1 (b : Pmm.BuddyState) (addr size : Nat) : Bool × Pmm.BuddyState :=
  vmmAllocLoop1Go size b addr size

/-- `VirtualMemoryManager::alloc(kernel = true, size, align_order)`
(lines 216-255): reserve a range from the kernel tree, then back every page
with a fresh frame; `none` with the partially mutated state on failure. -/
def vmmAlloc (st : VmmModel) (size alignOrder : Nat) : Option Nat × VmmModel :=
  match Vmm.treeAlloc st.kernelAlloc size alignOrder with
  | none => (none, st)
  | some (r, tree') =>
    match vmmAllocLoop1 st.buddy r.1 r.2 with
    | (true, b') => (some r.1, ⟨tree', b'⟩)
    | (false, b') => (none, ⟨tree', b'⟩)

/-- The segment-refill loop of the global allocator's `alloc` (lines
638-647), fuel-indexed for computability: `while let Some(addr) =
vmm.alloc(SEGMENT_SIZE, 22)` push the new segment onto `free_segments`,
stopping once `3 < free_segments.len()` (`SEGMENT_SIZE.trailing_zeros() =
22`).  A fuel of `3 - len` is exact: with zero fuel the loop body runs once
more and the `3 < len + 1` break is then certain.  Returns how many times
`VirtualMemoryManager::alloc` was called, the VMM state, and the new
length. -/
def segRefillGo : Nat → VmmModel → Nat → Nat × VmmModel × Nat
  | 0, st, len =>
    match vmmAlloc st SEGMENT_SIZE 22 with
    | (none, st') => (1, st', len)
    | (some _, st') => (1, st', len + 1)
  | fuel + 1, st, len =>
    match vmmAlloc st SEGMENT_SIZE 22 with
    | (none, st') => (1, st', len)
    | (some _, st') =>
      if 3 < len + 1 then (1, st', len + 1)
      else
        let r := segRefillGo fuel st' (len + 1)
        (r.1 + 1, r.2)

/-- Entry point of the segment-refill loop. -/
def segRefillLoop (st : VmmModel) (len : Nat) : Nat × VmmModel × Nat :=
  segRefillGo (3 - len) st len

/-- The `'alloc_segments` block of the global allocator's `alloc` (lines
625-648), reached on every non-huge call whose thread-local fast path
failed: skipped when more than 3 segments are already free, or when the VMM
`try_lock` fails; otherwise it runs the refill loop.  First component: the
number of `VirtualMemoryManager::alloc` calls made. -/
def allocSegmentsBlock (lockAcquired : Bool) (st : VmmModel) (len : Nat) :
    Nat × VmmModel × Nat :=
  if 3 < len then (0, st, len)
  else if lockAcquired then segRefillLoop st len
  else (0, st, len)

/-- Owner-side state of one heap page (`PageMeta`), at block-address level:
`free` and `local_free` are the intrusive chains as lists of block
addresses, `thread_free` is the raw tagged word (low bits state, high bits
list head — with a single thread no foreign free ever pushes a block, so
only the tag is ever non-zero), plus `used` and `is_full`.
`ubNullRecovered` records that the slow path executed
`NonNull::new_unchecked` on a null recovered head (see `pageBlockSource`). -/
structure PageModel where
  free : List Nat
  localFree : List Nat
  threadFree : Nat
  used : Nat
  isFull : Bool
  ubNullRecovered : Bool
deriving DecidableEq

/-- The free-list initialization of `alloc_large_page` (lines 434-441):
stride the segment body from `LARGE_SIZE_CLASS_PAGE_STARTS[large_class]` to
`SEGMENT_SIZE` in class-size steps, pushing each node on the head of `free`
(block addresses are offsets into the 4 MiB segment, segment base taken as
0). -/
def initLargePage (largeClass : Nat) : PageModel :=
  let cs := LARGE_SIZE_CLASSES.getD largeClass 0
  let start := LARGE_SIZE_CLASS_PAGE_STARTS largeClass
  let offsets := List.range' start ((SEGMENT_SIZE - start + cs - 1) / cs) cs
  { free := offsets.foldl (fun acc off => off :: acc) []
    localFree := []
    threadFree := 0
    used := 0
    isFull := false
    ubNullRecovered := false }

/-- The slow-path block-source selection of `ThreadOwned::<ThreadAllocator>
::alloc` (lines 501-530) on one page: (a) pop `page.free`; (b) swap
`page.local_free` to null and install it as the free list; (c) CAS
`thread_free` from `Normal` (0) to `Delayed` (3) — on success there is no
block, the page is marked full and unlinked (the loop then materializes a
fresh page, outside this one-page model); on CAS *failure* the code swaps
the word back to `Normal` and passes `old & !7` to
`NonNull::new_unchecked`, then runs `*page.used += 1; *page.free.get() =
free.as_ref().next` and returns `free.as_ptr()`.  With `thread_free = 3`
(Delayed, empty list) the recovered head is null: the returned block is the
null pointer, the write to `page.free` reads through address 0, and
`ubNullRecovered` is set (the subsequent `free` value is unmodellable). -/
def pageBlockSource (p : PageModel) : Option Nat × PageModel :=
  match p.free with
  | blk :: rest => (some blk, { p with free := rest, used := p.used + 1 })
  | [] =>
    match p.localFree with
    | blk :: rest =>
      (some blk, { p with localFree := [], free := rest, used := p.used + 1 })
    | [] =>
      if p.threadFree = 0 then
        (none, { p with threadFree := 3, isFull := true })
      else
        let head := p.threadFree / 8 * 8
        (some head,
          { p with
            threadFree := 0
            used := p.used + 1
            ubNullRecovered := p.ubNullRecovered || decide (head = 0) })

/-- `local_free` (lines 448-462) on this page: clear `is_full` (relinking
the page from the full list into the class list) and push the block onto
`local_free`. -/
def pageLocalFree (p : PageModel) (blk : Nat) : PageModel :=
  { p with isFull := false, localFree := blk :: p.localFree }

/-- One owner-thread operation on the page. -/
inductive PageOp where
  | opAlloc : PageOp
  | opFree : Nat → PageOp

/-- Run a sequence of owner operations. -/
def pageRun (p : PageModel) (ops : List PageOp) : PageModel :=
  ops.foldl (fun p op =>
    match op with
    | .opAlloc => (pageBlockSource p).2
    | .opFree blk => pageLocalFree p blk) p

end Malloc



/-! ### Concrete states used by individual claims -/

namespace Vmm

/-- A single free range `[2^64 - 12289, 2^64 - 1)` — well formed (disjoint,
non-touching, positive, inside the address space) but not page-aligned and
close to the top of the `usize` range. -/
def c6State : Ranges := [(18446744073709539327, 12288)]

end Vmm

namespace Pmm

/-- State after `free(12, 0x100000); free(12, 0x101000)` on a fresh allocator
with `phys_offset = 0` (the two order-12 chunks are buddies of one pair). -/
def c1State : BuddyState :=
  free (free (BuddyState.init 0) 12 0x100000) 12 0x101000

/-- State after `free_region(0x100000..0x101000); free_region(0x101000..0x102000)`
on a fresh allocator with `phys_offset = 0`: two adjacent usable regions, each
released exactly as `pmm::init` would. -/
def c4State : BuddyState :=
  freeRegion (freeRegion (BuddyState.init 0) 0x100000 0x101000) 0x101000 0x102000

/-- A small state used to witness the `alloc` characterization: a fresh
allocator with `phys_offset = 0` in which the single chunk `0x1000` was freed
at order 12. -/
def c8State : BuddyState :=
  free (BuddyState.init 0) 12 0x1000

end Pmm

namespace Malloc

/-- A concrete VMM state with ample space: 256 MiB free in the kernel tree
and 16 MiB of physical memory (eight 2 MiB chunks) in the buddy allocator. -/
def c3State : VmmModel :=
  ⟨[(0x40000000, 0x10000000)], Pmm.freeRegion (Pmm.BuddyState.init 0) 0x1000000 0x2000000⟩

end Malloc

namespace Malloc

/-- The page state reached single-threadedly on one 512 KiB-class page
(large class 23, seven blocks per segment): seven allocations drain the
fresh free list; the eighth finds every source empty, CAS-marks
`thread_free` as `Delayed` (3) and retires the page full; a local free of
block `0x380000` revives it onto the class list with one block on
`local_free`; the ninth allocation consumes that block through source (b).
`thread_free` is still 3. -/
def c5PreState : PageModel :=
  pageRun (initLargePage 23)
    (List.replicate 8 PageOp.opAlloc ++ [PageOp.opFree 0x380000] ++ [PageOp.opAlloc])

end Malloc

/-! ## Theorems -/

namespace Pmm

theorem setFreeList_freeLists (st : BuddyState) (o : Nat) (l : List Nat) :
    (setFreeList st o l).freeLists = fun o' => if o' = o then l else st.freeLists o' := rfl

theorem setMap_freeLists (st : BuddyState) (o : Nat) (l : List Nat) :
    (setMap st o l).freeLists = st.freeLists := rfl

theorem toggleBit_freeLists (st : BuddyState) (o bit : Nat) :
    (toggleBit st o bit).freeLists = st.freeLists := rfl

theorem popFreeList_eq_none (st : BuddyState) (o : Nat) :
    popFreeList st o = none ↔ st.freeLists o = [] := by
  cases h : st.freeLists o <;> simp [popFreeList, h]

theorem allocLoop_none_iff (st : BuddyState) :
    ∀ n o, allocLoop st o n = none ↔ ∀ o', o ≤ o' → o' < o + n → st.freeLists o' = [] := by
  intro n
  induction n with
  | zero => intro o; simp [allocLoop]; omega
  | succ n ih =>
    intro o
    cases h : st.freeLists o with
    | nil =>
      have hpop : popFreeList st o = none := (popFreeList_eq_none st o).2 h
      simp only [allocLoop, hpop]
      rw [ih (o + 1)]
      constructor
      · intro hall o' h1 h2
        rcases Nat.eq_or_lt_of_le h1 with rfl | hlt
        · exact h
        · exact hall o' hlt (by omega)
      · intro hall o' h1 h2
        exact hall o' (by omega) (by omega)
    | cons v rest =>
      simp [allocLoop, popFreeList, h]
      exact ⟨o, le_rfl, by omega, by simp [h]⟩

theorem allocLoop_some (st : BuddyState) :
    ∀ n o fo v st', allocLoop st o n = some (fo, v, st') →
      o ≤ fo ∧ fo < o + n ∧ (∀ o', o ≤ o' → o' < fo → st.freeLists o' = []) ∧
      ∃ rest, st.freeLists fo = v :: rest ∧ st' = setFreeList st fo rest := by
  intro n
  induction n with
  | zero => intro o fo v st' h; simp [allocLoop] at h
  | succ n ih =>
    intro o fo v st' h
    cases hl : st.freeLists o with
    | cons w rest =>
      simp [allocLoop, popFreeList, hl] at h
      obtain ⟨rfl, rfl, rfl⟩ := h
      exact ⟨le_rfl, by omega, fun o' h1 h2 => by omega, rest, hl, rfl⟩
    | nil =>
      have hpop : popFreeList st o = none := (popFreeList_eq_none st o).2 hl
      simp only [allocLoop, hpop] at h
      obtain ⟨h1, h2, h3, rest, h4, h5⟩ := ih (o + 1) fo v st' h
      refine ⟨by omega, by omega, ?_, rest, h4, h5⟩
      intro o' ho1 ho2
      rcases Nat.eq_or_lt_of_le ho1 with rfl | hlt
      · exact hl
      · exact h3 o' hlt ho2

theorem toggleRun_freeLists (addr : Nat) :
    ∀ n st o, (toggleRun st addr o n).freeLists = st.freeLists := by
  intro n
  induction n with
  | zero => intro st o; rfl
  | succ n ih => intro st o; rw [toggleRun, ih, toggleBit_freeLists]

/-- **C1** (code-bug exhibit).  The claim says: when `free(order, addr)`
toggles the pair bit to 0 (the buddy was previously free), the buddy chunk is
popped from `free_list[order]` and the merged chunk is freed at `order + 1`.
The code does neither: after `free(12, 0x100000); free(12, 0x101000)` on a
fresh allocator the buddy `0x100000` is still the head of `free_list[12]`
(never popped), and the address pushed at order 13 is the original `0x101000`
— not the merged chunk `0x100000`, and not even 2^13-aligned. -/
theorem buddy_free_merge_divergence :
    c1State.freeLists 12 = [0x100000] ∧ c1State.freeLists 13 = [0x101000] ∧
      ¬ (0x100000 ∈ c1State.freeLists 13) := by decide

/-- **C4** (code-bug exhibit).  The claimed invariant — every address on
`free_list[o]` is a multiple of `2^o` — is violated in a state reachable by
two perfectly aligned `free_region` calls on adjacent regions: the coalescing
path of `free` pushes the unaligned original address `0x101000` onto the
order-13 free list. -/
theorem buddy_free_list_alignment_violation :
    0x101000 ∈ c4State.freeLists 13 ∧ ¬ (2 ^ 13 ∣ 0x101000) := by decide

/-- **C8**: for every order with `12 ≤ order ≤ 21`, `alloc(order)` passes its
range assertion (no panic, modelled by the outer `some`); it returns `none`
leaving the whole state — free lists and bitmaps — unchanged exactly when the
free lists of all orders ≥ `order` are empty; and when some list is non-empty
it returns the head of the lowest non-empty order's free list (minus
`phys_offset`), popping it from that list. -/
theorem buddy_alloc_characterization (st : BuddyState) (order : Nat)
    (h1 : 12 ≤ order) (h2 : order ≤ 21) :
    ∃ r, alloc st order = some r ∧
      ((r.1 = none ↔ ∀ o, order ≤ o → o ≤ 21 → st.freeLists o = []) ∧
       (r.1 = none → r.2 = st) ∧
       (∀ a, r.1 = some a → ∃ o, order ≤ o ∧ o ≤ 21 ∧
          (∀ o', order ≤ o' → o' < o → st.freeLists o' = []) ∧
          ∃ v rest, st.freeLists o = v :: rest ∧ a = v - st.physOffset ∧
            r.2.freeLists o = rest)) := by
  refine ⟨allocUnchecked st order, by simp [alloc]; omega, ?_⟩
  unfold allocUnchecked
  cases hres : allocLoop st order (22 - order) with
  | none =>
    have := (allocLoop_none_iff st (22 - order) order).1 hres
    refine ⟨?_, fun _ => rfl, by simp⟩
    simp only [true_iff]
    exact fun o ho1 ho2 => this o ho1 (by omega)
  | some x =>
    obtain ⟨fo, v, st'⟩ := x
    obtain ⟨hfo1, hfo2, hempty, rest, hlist, rfl⟩ :=
      allocLoop_some st (22 - order) order fo v st' hres
    refine ⟨by simp; exact ⟨fo, hfo1, by omega, by simp [hlist]⟩, by simp, ?_⟩
    intro a ha
    simp only [Option.some_inj] at ha
    refine ⟨fo, hfo1, by omega, hempty, v, rest, hlist, ha.symm, ?_⟩
    rw [toggleRun_freeLists, setFreeList_freeLists]
    simp

end Pmm

namespace Vmm

theorem bestFit_some_mem (fs : Nat) :
    ∀ (l : Ranges) (q : Nat × Nat), bestFit l fs = some q → q ∈ l ∧ fs ≤ q.2 := by
  intro l
  induction l with
  | nil => intro q h; simp [bestFit] at h
  | cons p l ih =>
    intro q h
    cases hb : bestFit l fs with
    | none =>
      simp only [bestFit, hb] at h
      by_cases hp : p.2 < fs
      · simp [hp] at h
      · rw [if_neg hp, Option.some_inj] at h
        subst h
        exact ⟨List.mem_cons_self p l, by omega⟩
    | some q' =>
      simp only [bestFit, hb] at h
      obtain ⟨hq1, hq2⟩ := ih q' hb
      by_cases hp : p.2 < fs
      · rw [if_pos hp, Option.some_inj] at h
        subst h
        exact ⟨List.mem_cons_of_mem p hq1, hq2⟩
      · rw [if_neg hp] at h
        by_cases hc : p.2 < q'.2 ∨ (p.2 = q'.2 ∧ p.1 < q'.1)
        · rw [if_pos hc, Option.some_inj] at h
          subst h
          exact ⟨List.mem_cons_self p l, by omega⟩
        · rw [if_neg hc, Option.some_inj] at h
          subst h
          exact ⟨List.mem_cons_of_mem p hq1, hq2⟩

theorem bestFit_none_iff (fs : Nat) :
    ∀ l : Ranges, bestFit l fs = none ↔ ∀ p ∈ l, p.2 < fs := by
  intro l
  induction l with
  | nil => simp [bestFit]
  | cons p l ih =>
    cases hb : bestFit l fs with
    | none =>
      simp only [bestFit, hb]
      have hall := ih.1 hb
      by_cases hp : p.2 < fs
      · rw [if_pos hp]
        simp only [true_iff]
        intro r hr
        rcases List.mem_cons.1 hr with rfl | hr'
        · exact hp
        · exact hall r hr'
      · rw [if_neg hp]
        simp only [ne_eq, Option.some_ne_none, not_false_iff, false_iff, not_forall]
        exact ⟨p, by simp, by omega⟩
    | some q =>
      simp only [bestFit, hb]
      obtain ⟨hq1, hq2⟩ := bestFit_some_mem fs l q hb
      constructor
      · intro h
        by_cases hp : p.2 < fs
        · rw [if_pos hp] at h; simp at h
        · rw [if_neg hp] at h; split at h <;> simp at h
      · intro hall
        exact absurd (hall q (List.mem_cons_of_mem p hq1)) (by omega)

theorem bestFit_min (fs : Nat) :
    ∀ (l : Ranges) (q : Nat × Nat), bestFit l fs = some q →
      ∀ p ∈ l, fs ≤ p.2 → q.2 < p.2 ∨ (q.2 = p.2 ∧ q.1 ≤ p.1) := by
  intro l
  induction l with
  | nil => intro q h; simp [bestFit] at h
  | cons p l ih =>
    intro q h r hr hfs
    cases hb : bestFit l fs with
    | none =>
      simp only [bestFit, hb] at h
      have hall := (bestFit_none_iff fs l).1 hb
      by_cases hp : p.2 < fs
      · simp [hp] at h
      · rw [if_neg hp, Option.some_inj] at h
        subst h
        rcases List.mem_cons.1 hr with rfl | hr'
        · omega
        · exact absurd (hall r hr') (by omega)
    | some q' =>
      simp only [bestFit, hb] at h
      by_cases hp : p.2 < fs
      · rw [if_pos hp, Option.some_inj] at h
        subst h
        rcases List.mem_cons.1 hr with rfl | hr'
        · omega
        · exact ih q' hb r hr' hfs
      · rw [if_neg hp] at h
        by_cases hc : p.2 < q'.2 ∨ (p.2 = q'.2 ∧ p.1 < q'.1)
        · rw [if_pos hc, Option.some_inj] at h
          subst h
          rcases List.mem_cons.1 hr with rfl | hr'
          · omega
          · have := ih q' hb r hr' hfs
            omega
        · rw [if_neg hc, Option.some_inj] at h
          subst h
          rcases List.mem_cons.1 hr with rfl | hr'
          · omega
          · exact ih q' hb r hr' hfs

theorem wadd_eq {a b : Nat} (h : a + b < USIZE) : wadd a b = a + b := by
  simp [wadd, Nat.mod_eq_of_lt h]

theorem wsub_eq {a b : Nat} (hba : b ≤ a) (ha : a < USIZE) : wsub a b = a - b := by
  have hb : b % USIZE = b := Nat.mod_eq_of_lt (by omega)
  simp only [wsub, hb, USIZE] at *
  omega

theorem shiftLeft_one_mod (alignOrder : Nat) (h : alignOrder ≤ 62) :
    (1 <<< alignOrder) % USIZE = 2 ^ alignOrder := by
  rw [Nat.shiftLeft_eq, one_mul]
  exact Nat.mod_eq_of_lt (Nat.pow_lt_pow_right one_lt_two (by omega))

theorem pageRoundUp_eq {size : Nat} (h : size ≤ 2 ^ 62) :
    pageRoundUp size = (size + 4095) - (size + 4095) % 4096 := by
  have h1 : size + (PAGE_SIZE - 1) < USIZE := by simp only [PAGE_SIZE, USIZE]; omega
  simp only [pageRoundUp, wadd_eq h1]
  rfl

theorem pageRoundUp_le {size : Nat} (h : size ≤ 2 ^ 62) :
    pageRoundUp size ≤ 2 ^ 62 + 4095 := by
  rw [pageRoundUp_eq h]; omega

/-- Under sane request bounds the wrapped `free_size` computation of
`treeAlloc` equals the exact `allocThreshold`. -/
theorem freeSize_eq (size alignOrder : Nat) (hao : alignOrder ≤ 62) (hsz : size ≤ 2 ^ 62) :
    wsub (wadd (max (pageRoundUp size) (max ((1 <<< alignOrder) % USIZE) PAGE_SIZE))
          (max ((1 <<< alignOrder) % USIZE) PAGE_SIZE)) PAGE_SIZE
      = allocThreshold size alignOrder := by
  rw [shiftLeft_one_mod alignOrder hao]
  have h1 : 2 ^ alignOrder ≤ 2 ^ 62 := Nat.pow_le_pow_right (by norm_num) hao
  have h2 := pageRoundUp_le hsz
  have hps : PAGE_SIZE = 4096 := rfl
  have hA : max (2 ^ alignOrder) PAGE_SIZE ≤ 2 ^ 62 + 4096 := by
    rw [hps]; exact Nat.max_le.2 ⟨by omega, by omega⟩
  have hM : max (pageRoundUp size) (max (2 ^ alignOrder) PAGE_SIZE) ≤ 2 ^ 62 + 4096 :=
    Nat.max_le.2 ⟨by omega, hA⟩
  have hsum : max (pageRoundUp size) (max (2 ^ alignOrder) PAGE_SIZE)
      + max (2 ^ alignOrder) PAGE_SIZE < USIZE := by
    have hu : USIZE = 2 ^ 64 := rfl
    have hlarge : (2:Nat) ^ 62 + 4096 + (2 ^ 62 + 4096) < 2 ^ 64 := by norm_num
    omega
  have hpage : PAGE_SIZE ≤ max (pageRoundUp size) (max (2 ^ alignOrder) PAGE_SIZE)
      + max (2 ^ alignOrder) PAGE_SIZE := by
    have := le_max_right (2 ^ alignOrder) PAGE_SIZE
    omega
  rw [wadd_eq hsum, wsub_eq hpage hsum]
  rfl

/-! #### The unmap loops of `VirtualMemoryManager::free` (C9) -/

theorem unmapLoop3_dvd :
    ∀ size, PAGE_SIZE ∣ size → ∀ addr, unmapLoop3 addr size = some 0 := by
  intro size
  induction size using Nat.strong_induction_on with
  | _ size ih =>
    intro hdvd addr
    have hps : PAGE_SIZE = 4096 := rfl
    have hmod : size % 4096 = 0 := by
      rw [hps] at hdvd; omega
    rcases Nat.eq_zero_or_pos size with rfl | hpos
    · rw [unmapLoop3]; simp
    · have h4096 : 4096 ≤ size := by omega
      rw [unmapLoop3, if_pos hpos, if_neg (by omega)]
      exact ih (size - PAGE_SIZE) (by rw [hps]; omega)
        (by rw [hps]; exact ⟨size / 4096 - 1, by omega⟩) _

theorem unmapLoop3_not_dvd :
    ∀ size, ¬ PAGE_SIZE ∣ size → ∀ addr, unmapLoop3 addr size = none := by
  intro size
  induction size using Nat.strong_induction_on with
  | _ size ih =>
    intro hdvd addr
    have hps : PAGE_SIZE = 4096 := rfl
    have hmod : size % 4096 ≠ 0 := by
      rw [hps] at hdvd; omega
    have hpos : 0 < size := by omega
    rcases Nat.lt_or_ge size PAGE_SIZE with hlt | hge
    · rw [unmapLoop3, if_pos hpos, if_pos hlt]
    · rw [unmapLoop3, if_pos hpos, if_neg (by omega)]
      exact ih (size - PAGE_SIZE) (by rw [hps]; omega)
        (by rw [hps]; omega) _

theorem unmapLoop2_dvd :
    ∀ size, PAGE_SIZE ∣ size → ∀ addr, unmapLoop2 addr size = some 0 := by
  intro size
  induction size using Nat.strong_induction_on with
  | _ size ih =>
    intro hdvd addr
    have hhuge : HUGE_PAGE_SIZE = 2097152 := rfl
    have hps : PAGE_SIZE = 4096 := rfl
    rcases Nat.lt_or_ge size HUGE_PAGE_SIZE with hlt | hge
    · rw [unmapLoop2, if_neg (by omega)]
      exact unmapLoop3_dvd size hdvd addr
    · rw [unmapLoop2, if_pos hge]
      refine ih (size - HUGE_PAGE_SIZE) (by omega) ?_ _
      rw [hps] at hdvd ⊢
      rw [hhuge]
      omega

theorem unmapLoop2_not_dvd :
    ∀ size, ¬ PAGE_SIZE ∣ size → ∀ addr, unmapLoop2 addr size = none := by
  intro size
  induction size using Nat.strong_induction_on with
  | _ size ih =>
    intro hdvd addr
    have hhuge : HUGE_PAGE_SIZE = 2097152 := rfl
    have hps : PAGE_SIZE = 4096 := rfl
    rcases Nat.lt_or_ge size HUGE_PAGE_SIZE with hlt | hge
    · rw [unmapLoop2, if_neg (by omega)]
      exact unmapLoop3_not_dvd size hdvd addr
    · rw [unmapLoop2, if_pos hge]
      refine ih (size - HUGE_PAGE_SIZE) (by omega) ?_ _
      rw [hps] at hdvd ⊢
      rw [hhuge]
      omega

theorem unmapLoop1_dvd :
    ∀ size, PAGE_SIZE ∣ size → ∀ addr, unmapLoop1 addr size = some 0 := by
  intro size
  induction size using Nat.strong_induction_on with
  | _ size ih =>
    intro hdvd addr
    have hps : PAGE_SIZE = 4096 := rfl
    by_cases hcond : 0 < size ∧ addr % HUGE_PAGE_SIZE ≠ 0
    · have h4096 : 4096 ≤ size := by
        rw [hps] at hdvd
        omega
      rw [unmapLoop1, if_pos hcond, if_neg (by omega)]
      refine ih (size - PAGE_SIZE) (by rw [hps]; omega) ?_ _
      rw [hps] at hdvd ⊢
      omega
    · rw [unmapLoop1, if_neg hcond]
      exact unmapLoop2_dvd size hdvd addr

theorem unmapLoop1_not_dvd :
    ∀ size, ¬ PAGE_SIZE ∣ size → ∀ addr, unmapLoop1 addr size = none := by
  intro size
  induction size using Nat.strong_induction_on with
  | _ size ih =>
    intro hdvd addr
    have hps : PAGE_SIZE = 4096 := rfl
    by_cases hcond : 0 < size ∧ addr % HUGE_PAGE_SIZE ≠ 0
    · rcases Nat.lt_or_ge size PAGE_SIZE with hlt | hge
      · rw [unmapLoop1, if_pos hcond, if_pos hlt]
      · rw [unmapLoop1, if_pos hcond, if_neg (by omega)]
        refine ih (size - PAGE_SIZE) (by rw [hps]; omega) ?_ _
        rw [hps] at hdvd ⊢
        omega
    · rw [unmapLoop1, if_neg hcond]
      exact unmapLoop2_not_dvd size hdvd addr

/-- **C9**: the unmap loops of `VirtualMemoryManager::free` decrement the
caller-supplied `size` by whole page sizes without rounding it first.  For
every call whose `size` is a multiple of 4096 (and 4 KiB-aligned `addr`, as
the claim assumes) the loops terminate with `size` exactly 0 and no `usize`
subtraction underflows; the precondition is required: whenever `size` is not
a multiple of 4096 — as a huge `dealloc` passes `layout.size()` unrounded —
the final subtraction underflows (`none`). -/
theorem vmm_free_unmap_loops (addr size : Nat) :
    (addr % PAGE_SIZE = 0 → PAGE_SIZE ∣ size → unmapLoop1 addr size = some 0) ∧
    (¬ PAGE_SIZE ∣ size → unmapLoop1 addr size = none) :=
  ⟨fun _ hdvd => unmapLoop1_dvd size hdvd addr,
   fun hdvd => unmapLoop1_not_dvd size hdvd addr⟩

/-- Witness for C9: a well-formed free of two pages ends at 0; a huge
dealloc of `layout.size() = 600000` bytes underflows. -/
theorem vmm_free_unmap_loops_witness :
    unmapLoop1 0x1000 0x2000 = some 0 ∧ unmapLoop1 0x200000 600000 = none :=
  ⟨(vmm_free_unmap_loops 0x1000 0x2000).1 (by decide) (by decide),
   (vmm_free_unmap_loops 0x200000 600000).2 (by decide)⟩

/-- **C2** (counterexample).  The claim's threshold is
`size + align - 4096`; on the state with the single free range
`(addr 0, size 0x2000)` and the call `alloc(0x1000, 13)` that threshold is
`0x1000 + 0x2000 - 0x1000 = 0x2000`, so a free range of at least that size
exists and the claim requires a successful allocation — but the code, whose
threshold is `max(size, align) + align - 4096 = 0x3000`, returns `None`. -/
theorem tree_alloc_claimed_threshold_fails :
    treeAlloc [(0, 0x2000)] 0x1000 13 = none ∧
      pageRoundUp 0x1000 + max (2 ^ 13) PAGE_SIZE - PAGE_SIZE ≤ 0x2000 := by
  decide

/-- **C2** (amended): `alloc(size, align_order)` rounds `size` up to 4 KiB
and computes `align = max(1 << align_order, 4096)`, but selects the smallest
free range of size at least `max(size, align) + align - 4096`
(`allocThreshold`), ties broken by lowest address; it returns `None` exactly
when no free range of at least that (corrected) threshold exists. -/
theorem tree_alloc_selection (l : Ranges) (size alignOrder : Nat)
    (hao : alignOrder ≤ 62) (hsz : size ≤ 2 ^ 62) :
    (treeAlloc l size alignOrder = none ↔ ∀ p ∈ l, p.2 < allocThreshold size alignOrder) ∧
    (∀ r l', treeAlloc l size alignOrder = some (r, l') →
      r.2 = pageRoundUp size ∧
      ∃ e ∈ l, allocThreshold size alignOrder ≤ e.2 ∧
        r.1 = alignUpW e.1 (max (2 ^ alignOrder) PAGE_SIZE) ∧
        ∀ p ∈ l, allocThreshold size alignOrder ≤ p.2 →
          e.2 < p.2 ∨ (e.2 = p.2 ∧ e.1 ≤ p.1)) := by
  have hkey := freeSize_eq size alignOrder hao hsz
  constructor
  · cases hb : bestFit l (allocThreshold size alignOrder) with
    | none =>
      simp only [treeAlloc, hkey, hb]
      simpa using (bestFit_none_iff _ l).1 hb
    | some e =>
      simp only [treeAlloc, hkey, hb]
      obtain ⟨he1, he2⟩ := bestFit_some_mem _ l e hb
      exact ⟨fun h => by simp at h, fun hall => absurd (hall e he1) (by omega)⟩
  · intro r l' h
    cases hb : bestFit l (allocThreshold size alignOrder) with
    | none => simp [treeAlloc, hkey, hb] at h
    | some e =>
      obtain ⟨he1, he2⟩ := bestFit_some_mem _ l e hb
      simp only [treeAlloc, hkey, hb, Option.some_inj, Prod.ext_iff] at h
      obtain ⟨⟨h1a, h1b⟩, h2⟩ := h
      have hr1 : r.1 = alignUpW e.1 (max (2 ^ alignOrder) PAGE_SIZE) := by
        rw [← h1a, shiftLeft_one_mod alignOrder hao]
      exact ⟨h1b.symm, e, he1, he2, hr1, bestFit_min _ l e hb⟩

/-! #### Sorted-list toolkit for the range trees -/

theorem removeAddr_append (L R : Ranges) (q : Nat × Nat)
    (hL : ∀ p ∈ L, p.1 ≠ q.1) :
    removeAddr (L ++ q :: R) q.1 = L ++ R := by
  induction L with
  | nil => simp [removeAddr]
  | cons p L ih =>
    simp only [List.cons_append, removeAddr, List.append_eq]
    rw [if_neg (hL p (List.mem_cons_self p L)),
      ih (fun x hx => hL x (List.mem_cons_of_mem p hx))]

theorem insertR_append (L R : Ranges) (q : Nat × Nat)
    (hL : ∀ p ∈ L, ¬ q.1 < p.1) (hR : ∀ p ∈ R, q.1 < p.1) :
    insertR (L ++ R) q = L ++ q :: R := by
  induction L with
  | nil =>
    cases R with
    | nil => simp [insertR]
    | cons r R =>
      simp only [List.nil_append, insertR, if_pos (hR r (List.mem_cons_self r R))]
  | cons p L ih =>
    simp only [List.cons_append, insertR, List.append_eq]
    rw [if_neg (hL p (List.mem_cons_self p L)),
      ih (fun x hx => hL x (List.mem_cons_of_mem p hx))]

theorem lookupAddr_append_left (L M : Ranges) (a : Nat)
    (hL : ∀ p ∈ L, p.1 ≠ a) :
    lookupAddr (L ++ M) a = lookupAddr M a := by
  induction L with
  | nil => simp
  | cons p L ih =>
    simp only [List.cons_append, lookupAddr, List.append_eq]
    rw [if_neg (hL p (List.mem_cons_self p L)),
      ih (fun x hx => hL x (List.mem_cons_of_mem p hx))]

theorem lookupAddr_eq_none (M : Ranges) (a : Nat) (hM : ∀ p ∈ M, p.1 ≠ a) :
    lookupAddr M a = none := by
  induction M with
  | nil => rfl
  | cons p M ih =>
    simp only [lookupAddr]
    rw [if_neg (hM p (List.mem_cons_self p M)),
      ih (fun x hx => hM x (List.mem_cons_of_mem p hx))]

theorem lastBelow_append (L M : Ranges) (a : Nat)
    (hL : ∀ p ∈ L, p.1 < a) (hM : ∀ p ∈ M, ¬ p.1 < a) :
    lastBelow (L ++ M) a = L.getLast? := by
  unfold lastBelow
  rw [List.filter_append, List.filter_eq_self.2 (fun p hp => by simpa using hL p hp),
    List.filter_eq_nil_iff.2 (fun p hp => by simpa using hM p hp), List.append_nil]

theorem mem_of_getLast?_eq (L : Ranges) (p : Nat × Nat) (h : L.getLast? = some p) :
    p ∈ L := by
  have hd := List.dropLast_append_getLast? p (by rw [h]; rfl)
  rw [← hd]
  simp

/-- Split a well-formed list around a member: everything to the left ends
before it, everything to the right starts after it. -/
theorem ranges_decomp {l : Ranges} (hwf : RangesWF l) {e : Nat × Nat} (he : e ∈ l) :
    ∃ L R, l = L ++ e :: R ∧ (∀ p ∈ L, p.1 + p.2 < e.1) ∧ (∀ p ∈ R, e.1 + e.2 < p.1) := by
  obtain ⟨L, R, hlr⟩ := List.append_of_mem he
  subst hlr
  have hp := hwf.1
  rw [List.pairwise_append] at hp
  obtain ⟨hL, hR, hLR⟩ := hp
  refine ⟨L, R, rfl, ?_, ?_⟩
  · intro p hpL
    exact hLR p hpL e (List.mem_cons_self e R)
  · intro p hpR
    exact (List.pairwise_cons.1 hR).1 p hpR

/-! #### Arithmetic facts about the alignment helpers -/

theorem pageRoundDown_of_dvd {a : Nat} (h : PAGE_SIZE ∣ a) : pageRoundDown a = a := by
  obtain ⟨k, rfl⟩ := h
  simp [pageRoundDown, Nat.mul_mod_right]

theorem pageRoundUp_of_dvd {s : Nat} (hdvd : PAGE_SIZE ∣ s) (hlt : s + (PAGE_SIZE - 1) < USIZE) :
    pageRoundUp s = s := by
  obtain ⟨k, rfl⟩ := hdvd
  have hw : wadd (PAGE_SIZE * k) (PAGE_SIZE - 1) = PAGE_SIZE * k + (PAGE_SIZE - 1) :=
    wadd_eq hlt
  simp only [pageRoundUp, hw]
  have hm : (PAGE_SIZE * k + (PAGE_SIZE - 1)) % PAGE_SIZE = PAGE_SIZE - 1 := by
    rw [Nat.add_mod, Nat.mul_mod_right]
    simp [PAGE_SIZE]
  rw [hm]
  omega

theorem alignUpW_spec {a align : Nat} (hpos : 0 < align) (hlt : a + (align - 1) < USIZE) :
    a ≤ alignUpW a align ∧ alignUpW a align ≤ a + (align - 1) ∧ align ∣ alignUpW a align := by
  have hw : wadd a (align - 1) = a + (align - 1) := wadd_eq hlt
  simp only [alignUpW, hw]
  have hm : (a + (align - 1)) % align < align := Nat.mod_lt _ hpos
  refine ⟨by omega, by omega, ?_⟩
  exact ⟨(a + (align - 1)) / align, by
    have := Nat.div_add_mod (a + (align - 1)) align
    omega⟩

theorem pageSize_dvd_pageRoundUp (s : Nat) : PAGE_SIZE ∣ pageRoundUp s := by
  show PAGE_SIZE ∣ (wadd s (PAGE_SIZE - 1) - wadd s (PAGE_SIZE - 1) % PAGE_SIZE)
  exact ⟨wadd s (PAGE_SIZE - 1) / PAGE_SIZE, by
    have := Nat.div_add_mod (wadd s (PAGE_SIZE - 1)) PAGE_SIZE
    omega⟩

/-- Witness for the amended C2 at a concrete state and call. -/
theorem tree_alloc_selection_witness :
    ((0:Nat) ≤ 62 ∧ (0x2000:Nat) ≤ 2 ^ 62) ∧
    ((treeAlloc [((0x3000:Nat), (0x1000:Nat)), (0x8000, 0x5000)] 0x2000 0 = none ↔
        ∀ p ∈ ([((0x3000:Nat), (0x1000:Nat)), (0x8000, 0x5000)] : Ranges),
          p.2 < allocThreshold 0x2000 0) ∧
     (∀ r l', treeAlloc [((0x3000:Nat), (0x1000:Nat)), (0x8000, 0x5000)] 0x2000 0
          = some (r, l') →
       r.2 = pageRoundUp 0x2000 ∧
       ∃ e ∈ ([((0x3000:Nat), (0x1000:Nat)), (0x8000, 0x5000)] : Ranges),
         allocThreshold 0x2000 0 ≤ e.2 ∧
         r.1 = alignUpW e.1 (max (2 ^ 0) PAGE_SIZE) ∧
         ∀ p ∈ ([((0x3000:Nat), (0x1000:Nat)), (0x8000, 0x5000)] : Ranges),
           allocThreshold 0x2000 0 ≤ p.2 →
             e.2 < p.2 ∨ (e.2 = p.2 ∧ e.1 ≤ p.1))) :=
  ⟨⟨by decide, by decide⟩,
    tree_alloc_selection [(0x3000, 0x1000), (0x8000, 0x5000)] 0x2000 0 (by decide) (by decide)⟩

/-- **C6** (counterexample).  `c6State` is one set of pairwise disjoint,
non-touching free ranges, yet after `alloc(8192, 13)` and the matching
`free` the set of free addresses has changed: the `usize` underflow in the
post-padding size (`entry.size - before - size`) and the failing
`checked_add` in `free` leave the address `0` — never free before — inside a
free range afterwards. -/
theorem tree_round_trip_counterexample :
    RangesWF c6State ∧
    treeAlloc c6State 8192 13 =
      some ((18446744073709543424, 8192),
        [(0, 18446744073709551615), (18446744073709539327, 4097)]) ∧
    memRanges
      (treeFree [(0, 18446744073709551615), (18446744073709539327, 4097)]
        18446744073709543424 8192) 0 ∧
    ¬ memRanges c6State 0 := by
  refine ⟨by decide, by decide, by decide, by decide⟩

/-- **C6** (amended): on a well-formed state whose ranges are additionally
page-aligned — as every range the VMM ever inserts is — a successful
`alloc(size, align_order)` followed by `free` of the returned `(addr, size)`
restores the range list, and hence the set of free addresses, exactly. -/
theorem tree_alloc_free_round_trip (l : Ranges) (size alignOrder : Nat)
    (hwf : RangesWF l) (hal : RangesAligned l)
    (hao : alignOrder ≤ 62) (hsz : size ≤ 2 ^ 62)
    (r : Nat × Nat) (l' : Ranges)
    (halloc : treeAlloc l size alignOrder = some (r, l')) :
    treeFree l' r.1 r.2 = l ∧ (∀ x, memRanges (treeFree l' r.1 r.2) x ↔ memRanges l x) := by
  suffices h : treeFree l' r.1 r.2 = l by exact ⟨h, fun x => by rw [h]⟩
  have hkey := freeSize_eq size alignOrder hao hsz
  cases hb : bestFit l (allocThreshold size alignOrder) with
  | none => simp [treeAlloc, hkey, hb] at halloc
  | some e =>
  obtain ⟨he1, hethr⟩ := bestFit_some_mem _ l e hb
  simp only [treeAlloc, hkey, hb, Option.some_inj, Prod.ext_iff] at halloc
  rw [shiftLeft_one_mod alignOrder hao] at halloc
  obtain ⟨⟨hr1, hr2⟩, hl3⟩ := halloc
  set align := max (2 ^ alignOrder) PAGE_SIZE with halign
  set size' := pageRoundUp size with hsize'
  set addr := alignUpW e.1 align with haddr
  obtain ⟨hpos, hszlt, hendle⟩ := hwf.2 e he1
  obtain ⟨hadvd, hsdvd⟩ := hal e he1
  have hps : PAGE_SIZE = 4096 := rfl
  have husz : USIZE = 2 ^ 64 := rfl
  have halignps : PAGE_SIZE ≤ align := le_max_right _ _
  have haligndvd : PAGE_SIZE ∣ align := by
    rcases Nat.le_total (2 ^ alignOrder) PAGE_SIZE with h | h
    · rw [halign, Nat.max_eq_right h]
    · rw [halign, Nat.max_eq_left h]
      have h12 : 12 ≤ alignOrder := by
        by_contra hc
        have h1 : alignOrder ≤ 11 := by omega
        have h2 : (2:Nat) ^ alignOrder ≤ 2 ^ 11 := Nat.pow_le_pow_right (by norm_num) h1
        rw [hps] at h
        norm_num at h2
        omega
      have : PAGE_SIZE = 2 ^ 12 := by norm_num [hps]
      rw [this]
      exact pow_dvd_pow 2 h12
  have hthr : allocThreshold size alignOrder = max size' align + align - PAGE_SIZE := rfl
  have halignle2 : align ≤ e.2 := by
    have h1 := le_max_right size' align
    rw [hthr] at hethr
    omega
  have hlt : e.1 + (align - 1) < USIZE := by omega
  obtain ⟨hle_addr, haddr_le, hdvd_addr⟩ := alignUpW_spec (by omega) hlt
  have hbefore_w : wsub addr e.1 = addr - e.1 := wsub_eq hle_addr (by omega)
  rw [hbefore_w] at hl3
  set before := addr - e.1 with hbefore
  have hbdvd : PAGE_SIZE ∣ before := Nat.dvd_sub' (dvd_trans haligndvd hdvd_addr) hadvd
  have hble : before ≤ align - PAGE_SIZE := by
    have hd : PAGE_SIZE ∣ (align - before) := Nat.dvd_sub' haligndvd hbdvd
    have hne : align - before ≠ 0 := by omega
    have := Nat.le_of_dvd (by omega) hd
    omega
  have hs'dvd : PAGE_SIZE ∣ size' := pageSize_dvd_pageRoundUp size
  have hs'le := pageRoundUp_le hsz
  have hthrle : size' + align - PAGE_SIZE ≤ e.2 := by
    have h1 := le_max_left size' align
    rw [hthr] at hethr
    omega
  have hbs_le : before + size' ≤ e.2 := by omega
  have hafter_w1 : wsub e.2 before = e.2 - before := wsub_eq (by omega) (by omega)
  rw [hafter_w1] at hl3
  have hafter_w2 : wsub (e.2 - before) size' = e.2 - before - size' := wsub_eq (by omega) (by omega)
  rw [hafter_w2] at hl3
  set after := e.2 - before - size' with hafter
  obtain ⟨L, R, hdec, hLlt, hRgt⟩ := ranges_decomp hwf he1
  have hLmem : ∀ p ∈ L, p ∈ l := fun p hp => by
    rw [hdec]; exact List.mem_append_left _ hp
  have hRmem : ∀ p ∈ R, p ∈ l := fun p hp => by
    rw [hdec]; exact List.mem_append_right _ (List.mem_cons_of_mem _ hp)
  have hLpos : ∀ p ∈ L, 0 < p.2 := fun p hp => (hwf.2 p (hLmem p hp)).1
  have hLlt' : ∀ p ∈ L, p.1 < e.1 := fun p hp => by
    have h1 := hLlt p hp; have h2 := hLpos p hp; omega
  have hremove : removeAddr l e.1 = L ++ R := by
    rw [hdec]
    exact removeAddr_append L R e (fun p hp => by have := hLlt' p hp; omega)
  rw [hremove] at hl3
  have hprd : pageRoundDown addr = addr :=
    pageRoundDown_of_dvd (dvd_trans haligndvd hdvd_addr)
  have hsz4095 : size' + (PAGE_SIZE - 1) < USIZE := by
    rw [husz, hps]; omega
  have hpru : pageRoundUp size' = size' := pageRoundUp_of_dvd hs'dvd hsz4095
  have hfinL : ∀ p ∈ L, ¬ (e.1, e.2).1 < p.1 := fun p hp => by
    show ¬ e.1 < p.1; have := hLlt' p hp; omega
  have hfinR : ∀ p ∈ R, (e.1, e.2).1 < p.1 := fun p hp => by
    show e.1 < p.1; have := hRgt p hp; omega
  have hfinal : insertR (L ++ R) (e.1, e.2) = l := by
    rw [insertR_append L R (e.1, e.2) hfinL hfinR, Prod.mk.eta, ← hdec]
  by_cases hbpos : 0 < before
  · have haddr_eq : addr = e.1 + before := by omega
    have hstep1 : insertR (L ++ R) (e.1, before) = L ++ (e.1, before) :: R :=
      insertR_append L R (e.1, before)
        (fun p hp => by show ¬ e.1 < p.1; have := hLlt' p hp; omega)
        (fun p hp => by show e.1 < p.1; have := hRgt p hp; omega)
    have hwmerge : wadd e.1 before = e.1 + before := wadd_eq (by omega)
    by_cases hapos : 0 < after
    · -- padding on both sides of the allocated block
      have haa : addr + size' < USIZE := by omega
      rw [if_pos hapos, if_pos hbpos, wadd_eq haa, hstep1] at hl3
      have hsplit : L ++ (e.1, before) :: R = (L ++ [(e.1, before)]) ++ R := by simp
      have hstep2 : insertR (L ++ (e.1, before) :: R) (addr + size', after)
          = L ++ (e.1, before) :: (addr + size', after) :: R := by
        rw [hsplit, insertR_append (L ++ [(e.1, before)]) R (addr + size', after)
          (fun p hp => by
            show ¬ addr + size' < p.1
            rcases List.mem_append.1 hp with h | h
            · have := hLlt' p h; omega
            · simp at h; rw [h]; omega)
          (fun p hp => by show addr + size' < p.1; have := hRgt p hp; omega)]
        simp
      rw [hstep2] at hl3
      subst hl3
      rw [← hr1, ← hr2]
      have hlb : lastBelow (L ++ (e.1, before) :: (addr + size', after) :: R) addr
          = some (e.1, before) := by
        have hsp : L ++ (e.1, before) :: (addr + size', after) :: R
            = (L ++ [(e.1, before)]) ++ ((addr + size', after) :: R) := by simp
        rw [hsp, lastBelow_append (L ++ [(e.1, before)]) ((addr + size', after) :: R) addr
          (fun p hp => by
            rcases List.mem_append.1 hp with h | h
            · have := hLlt' p h; omega
            · simp at h; rw [h]; omega)
          (fun p hp => by
            rcases List.mem_cons.1 hp with h | h
            · rw [h]; omega
            · have := hRgt p h; omega),
          List.getLast?_concat]
      have hrm1 : removeAddr (L ++ (e.1, before) :: (addr + size', after) :: R) e.1
          = L ++ (addr + size', after) :: R :=
        removeAddr_append L ((addr + size', after) :: R) (e.1, before)
          (fun p hp => by show p.1 ≠ e.1; have := hLlt' p hp; omega)
      have hwsz : wadd (addr - e.1) size' = before + size' := by
        rw [wadd_eq (by omega)]
      have hml : freeMergeLeft (L ++ (e.1, before) :: (addr + size', after) :: R) addr size'
          = (L ++ (addr + size', after) :: R, e.1, before + size') := by
        simp only [freeMergeLeft, hlb]
        rw [hwmerge, if_pos (by omega : addr ≤ e.1 + before), hrm1, hwsz,
          Nat.max_eq_right (by omega)]
      have hkeyeq : e.1 + (before + size') = addr + size' := by omega
      have hlk : lookupAddr (L ++ (addr + size', after) :: R) (e.1 + (before + size'))
          = some after := by
        rw [hkeyeq, lookupAddr_append_left L _ _ (fun p hp => by
          have := hLlt' p hp; omega)]
        simp [lookupAddr]
      have hrm2 : removeAddr (L ++ (addr + size', after) :: R) (e.1 + (before + size'))
          = L ++ R := by
        rw [hkeyeq]
        exact removeAddr_append L R (addr + size', after)
          (fun p hp => by show p.1 ≠ addr + size'; have := hLlt' p hp; omega)
      have hwfin : wadd (before + size') after = e.2 := by
        rw [wadd_eq (by omega)]; omega
      have hmr : freeMergeRight (L ++ (addr + size', after) :: R) e.1 (before + size')
          = (L ++ R, e.2) := by
        simp only [freeMergeRight, if_pos (show e.1 + (before + size') < USIZE by omega), hlk,
          hrm2, hwfin]
      simp only [treeFree, hprd, hpru, hml, hmr]
      exact hfinal
    · -- padding only below the allocated block
      have he2eq : before + size' = e.2 := by omega
      rw [if_neg (by omega), if_pos hbpos, hstep1] at hl3
      subst hl3
      rw [← hr1, ← hr2]
      have hlb : lastBelow (L ++ (e.1, before) :: R) addr = some (e.1, before) := by
        have hsp : L ++ (e.1, before) :: R = (L ++ [(e.1, before)]) ++ R := by simp
        rw [hsp, lastBelow_append (L ++ [(e.1, before)]) R addr
          (fun p hp => by
            rcases List.mem_append.1 hp with h | h
            · have := hLlt' p h; omega
            · simp at h; rw [h]; omega)
          (fun p hp => by have := hRgt p hp; omega),
          List.getLast?_concat]
      have hrm1 : removeAddr (L ++ (e.1, before) :: R) e.1 = L ++ R :=
        removeAddr_append L R (e.1, before)
          (fun p hp => by show p.1 ≠ e.1; have := hLlt' p hp; omega)
      have hwsz : wadd (addr - e.1) size' = before + size' := by
        rw [wadd_eq (by omega)]
      have hml : freeMergeLeft (L ++ (e.1, before) :: R) addr size'
          = (L ++ R, e.1, before + size') := by
        simp only [freeMergeLeft, hlb]
        rw [hwmerge, if_pos (by omega : addr ≤ e.1 + before), hrm1, hwsz,
          Nat.max_eq_right (by omega)]
      have hmr : freeMergeRight (L ++ R) e.1 (before + size') = (L ++ R, e.2) := by
        rw [he2eq]
        by_cases hcap : e.1 + e.2 < USIZE
        · have hlk : lookupAddr (L ++ R) (e.1 + e.2) = none := by
            rw [lookupAddr_append_left L R _ (fun p hp => by
              have := hLlt' p hp; omega)]
            exact lookupAddr_eq_none R _ (fun p hp => by
              have := hRgt p hp; omega)
          simp only [freeMergeRight, if_pos hcap, hlk]
        · simp only [freeMergeRight, if_neg hcap]
      simp only [treeFree, hprd, hpru, hml, hmr]
      exact hfinal
  · -- no padding below: the allocation starts at the entry address
    have haddr_eq : addr = e.1 := by omega
    have hnomergeL : ∀ X : Ranges, lastBelow X addr = L.getLast? →
        freeMergeLeft X addr size' = (X, addr, size') := by
      intro X hX
      cases hgl : L.getLast? with
      | none => simp only [freeMergeLeft, hX, hgl]
      | some pl =>
        have hmem : pl ∈ L := mem_of_getLast?_eq L pl hgl
        have hplt := hLlt pl hmem
        have hw : wadd pl.1 pl.2 = pl.1 + pl.2 := wadd_eq (by omega)
        simp only [freeMergeLeft, hX, hgl]
        rw [hw, if_neg (by omega)]
    by_cases hapos : 0 < after
    · -- padding only above the allocated block
      have haa : addr + size' < USIZE := by omega
      rw [if_pos hapos, if_neg hbpos, wadd_eq haa] at hl3
      have hstep2 : insertR (L ++ R) (addr + size', after)
          = L ++ (addr + size', after) :: R :=
        insertR_append L R (addr + size', after)
          (fun p hp => by show ¬ addr + size' < p.1; have := hLlt' p hp; omega)
          (fun p hp => by show addr + size' < p.1; have := hRgt p hp; omega)
      rw [hstep2] at hl3
      subst hl3
      rw [← hr1, ← hr2]
      have hlb : lastBelow (L ++ (addr + size', after) :: R) addr = L.getLast? :=
        lastBelow_append L ((addr + size', after) :: R) addr
          (fun p hp => by have := hLlt' p hp; omega)
          (fun p hp => by
            rcases List.mem_cons.1 hp with h | h
            · rw [h]; omega
            · have := hRgt p h; omega)
      have hml := hnomergeL _ hlb
      have hlk : lookupAddr (L ++ (addr + size', after) :: R) (addr + size')
          = some after := by
        rw [lookupAddr_append_left L _ _ (fun p hp => by
          have := hLlt' p hp; omega)]
        simp [lookupAddr]
      have hrm2 : removeAddr (L ++ (addr + size', after) :: R) (addr + size')
          = L ++ R :=
        removeAddr_append L R (addr + size', after)
          (fun p hp => by show p.1 ≠ addr + size'; have := hLlt' p hp; omega)
      have hwfin : wadd size' after = e.2 := by
        rw [wadd_eq (by omega)]; omega
      have hmr : freeMergeRight (L ++ (addr + size', after) :: R) addr size'
          = (L ++ R, e.2) := by
        simp only [freeMergeRight, if_pos (show addr + size' < USIZE from haa), hlk,
          hrm2, hwfin]
      simp only [treeFree, hprd, hpru, hml, hmr]
      rw [haddr_eq]
      exact hfinal
    · -- exact fit: the entry is consumed whole
      have he2eq : size' = e.2 := by omega
      rw [if_neg (by omega), if_neg hbpos] at hl3
      subst hl3
      rw [← hr1, ← hr2]
      have hlb : lastBelow (L ++ R) addr = L.getLast? :=
        lastBelow_append L R addr
          (fun p hp => by have := hLlt' p hp; omega)
          (fun p hp => by have := hRgt p hp; omega)
      have hml := hnomergeL _ hlb
      have hmr : freeMergeRight (L ++ R) addr size' = (L ++ R, size') := by
        by_cases hcap : addr + size' < USIZE
        · have hlk : lookupAddr (L ++ R) (addr + size') = none := by
            rw [lookupAddr_append_left L R _ (fun p hp => by
              have := hLlt' p hp; omega)]
            exact lookupAddr_eq_none R _ (fun p hp => by
              have := hRgt p hp; omega)
          simp only [freeMergeRight, if_pos hcap, hlk]
        · simp only [freeMergeRight, if_neg hcap]
      simp only [treeFree, hprd, hpru, hml, hmr]
      rw [haddr_eq, he2eq]
      exact hfinal

/-- Witness for the amended C6 at a concrete aligned state. -/
theorem tree_alloc_free_round_trip_witness :
    (RangesWF [((0x100000:Nat), (0x10000:Nat))] ∧
      RangesAligned [((0x100000:Nat), (0x10000:Nat))] ∧
      (13:Nat) ≤ 62 ∧ (0x2000:Nat) ≤ 2 ^ 62 ∧
      treeAlloc [((0x100000:Nat), (0x10000:Nat))] 0x2000 13
        = some ((0x100000, 0x2000), [(0x102000, 0xE000)])) ∧
    (treeFree [((0x102000:Nat), (0xE000:Nat))] 0x100000 0x2000
        = [((0x100000:Nat), (0x10000:Nat))] ∧
      ∀ x, memRanges (treeFree [((0x102000:Nat), (0xE000:Nat))] 0x100000 0x2000) x
        ↔ memRanges [((0x100000:Nat), (0x10000:Nat))] x) :=
  ⟨⟨by decide, by decide, by decide, by decide, by decide⟩,
    tree_alloc_free_round_trip [(0x100000, 0x10000)] 0x2000 13
      (by decide) (by decide) (by decide) (by decide)
      (0x100000, 0x2000) [(0x102000, 0xE000)] (by decide)⟩

end Vmm

namespace Pmm

/-- Witness for C8: a concrete state with one chunk on the order-12 list,
`order = 12`. -/
theorem buddy_alloc_characterization_witness :
    (12 ≤ 12 ∧ 12 ≤ 21) ∧
      (∃ r, alloc c8State 12 = some r ∧
        ((r.1 = none ↔ ∀ o, 12 ≤ o → o ≤ 21 → c8State.freeLists o = []) ∧
         (r.1 = none → r.2 = c8State) ∧
         (∀ a, r.1 = some a → ∃ o, 12 ≤ o ∧ o ≤ 21 ∧
            (∀ o', 12 ≤ o' → o' < o → c8State.freeLists o' = []) ∧
            ∃ v rest, c8State.freeLists o = v :: rest ∧ a = v - c8State.physOffset ∧
              r.2.freeLists o = rest))) :=
  ⟨⟨by decide, by decide⟩,
    buddy_alloc_characterization c8State 12 (by decide) (by decide)⟩

end Pmm

namespace Malloc

/-- **C3** (counterexample).  On a reachable allocator call (thread-local
fast path empty, fewer than 4 free segments, VMM lock available and space
plentiful), the `'alloc_segments` block calls `VirtualMemoryManager::alloc`
four times, not at most once: the loop keeps requesting segments until
`free_segments.len()` exceeds 3. -/
theorem alloc_segments_more_than_one_vmm_call :
    (allocSegmentsBlock true c3State 0).1 = 4 ∧ ¬ (allocSegmentsBlock true c3State 0).1 ≤ 1 := by
  refine ⟨by decide, by decide⟩

theorem segRefillGo_calls :
    ∀ fuel (st : VmmModel) (len : Nat), (segRefillGo fuel st len).1 ≤ fuel + 1 := by
  intro fuel
  induction fuel with
  | zero =>
    intro st len
    rcases hv : vmmAlloc st SEGMENT_SIZE 22 with ⟨o, st'⟩
    cases o <;> simp [segRefillGo, hv]
  | succ fuel ih =>
    intro st len
    rcases hv : vmmAlloc st SEGMENT_SIZE 22 with ⟨o, st'⟩
    cases o with
    | none => simp [segRefillGo, hv]
    | some a =>
      simp only [segRefillGo, hv]
      by_cases hlen : 3 < len + 1
      · rw [if_pos hlen]; omega
      · rw [if_neg hlen]
        have := ih st' (len + 1)
        simp only
        omega

/-- **C3** (amended): on every global-allocator call whose padded size is at
most the largest large class, the number of `VirtualMemoryManager::alloc`
calls made by the segment-refill block is at most 4 — zero when more than 3
segments are already free or the VMM lock is unavailable — but not at most
one. -/
theorem alloc_segments_vmm_call_bound (lockAcquired : Bool) (st : VmmModel) (len : Nat) :
    (allocSegmentsBlock lockAcquired st len).1 ≤ 4 := by
  unfold allocSegmentsBlock
  by_cases h3 : 3 < len
  · rw [if_pos h3]; exact Nat.zero_le 4
  · rw [if_neg h3]
    cases lockAcquired with
    | false => simp
    | true =>
      have := segRefillGo_calls (3 - len) st len
      simp only [if_true, segRefillLoop]
      omega

/-- **C10**: when the global allocator's `dealloc` runs on a huge block
(padded size above 512 KiB) while the VMM mutex is already held,
`try_lock` fails and `dealloc` returns at once: `VirtualMemoryManager::free`
is never invoked, the free-range tree (and the page mappings, since the
unmap loops only run inside `free`) is unchanged, and no error reaches the
caller (`dealloc` returns unit). -/
theorem dealloc_huge_lock_held (tree : Vmm.Ranges) (ptr size align : Nat)
    (h : LARGE_SIZE_CLASSES.getLastD 0 < paddedSize size align) :
    deallocHuge false tree ptr size align = some (tree, false) := by
  unfold deallocHuge
  rw [if_pos h]
  simp

/-- Witness for C10: a 600000-byte, align-8 layout with the lock held. -/
theorem dealloc_huge_lock_held_witness :
    LARGE_SIZE_CLASSES.getLastD 0 < paddedSize 600000 8 ∧
      deallocHuge false [(0x40000000, 0x10000000)] 0xffff800000000000 600000 8
        = some ([(0x40000000, 0x10000000)], false) :=
  ⟨by decide, dealloc_huge_lock_held [(0x40000000, 0x10000000)] 0xffff800000000000 600000 8
    (by decide)⟩

/-! #### The size-class function (C7) -/

theorem bitLenGo_zero : ∀ fuel, bitLenGo fuel 0 = 0 := by
  intro fuel; cases fuel <;> rfl

theorem bitLenGo_eq :
    ∀ fuel n, n ≤ fuel → bitLenGo fuel n = if n = 0 then 0 else Nat.log2 n + 1 := by
  intro fuel
  induction fuel with
  | zero =>
    intro n h
    have : n = 0 := by omega
    subst this
    rfl
  | succ fuel ih =>
    intro n h
    rcases Nat.eq_zero_or_pos n with rfl | hn
    · simp [bitLenGo]
    · rw [bitLenGo, if_neg (by omega), if_neg (by omega)]
      rcases Nat.lt_or_ge n 2 with h2 | h2
      · have h1 : n = 1 := by omega
        subst h1
        rw [show (1:Nat) / 2 = 0 from rfl, bitLenGo_zero]
        rw [Nat.log2]
        norm_num
      · have hrec : n / 2 ≤ fuel := by omega
        rw [ih (n / 2) hrec, if_neg (by omega)]
        conv_rhs => rw [Nat.log2]
        rw [if_pos (by omega : n ≥ 2)]

/-- The computable `bitLength` agrees with `Nat.log2`. -/
theorem bitLength_eq_log2 (n : Nat) :
    bitLength n = if n = 0 then 0 else Nat.log2 n + 1 :=
  bitLenGo_eq n n le_rfl

theorem bitLength_spec {n : Nat} (h : 0 < n) :
    2 ^ (bitLength n - 1) ≤ n ∧ n < 2 ^ bitLength n ∧ 1 ≤ bitLength n := by
  rw [bitLength_eq_log2, if_neg (by omega)]
  refine ⟨?_, ?_, by omega⟩
  · simpa using Nat.log2_self_le (by omega)
  · exact Nat.lt_log2_self

theorem bitLength_eq {n b : Nat} (hb : 1 ≤ b) (h1 : 2 ^ (b - 1) ≤ n) (h2 : n < 2 ^ b) :
    bitLength n = b := by
  have hn : 0 < n := lt_of_lt_of_le (Nat.pos_pow_of_pos _ (by omega)) h1
  rw [bitLength_eq_log2, if_neg (by omega)]
  have hlow : b - 1 ≤ Nat.log2 n := (Nat.le_log2 (by omega)).2 h1
  have hhigh : Nat.log2 n < b := (Nat.log2_lt (by omega)).2 h2
  omega

theorem bitLength_ge_seven {n : Nat} (h : 64 < n) : 7 ≤ bitLength n := by
  have hn : 0 < n := by omega
  obtain ⟨h1, h2, h3⟩ := bitLength_spec hn
  by_contra hc
  have hble : bitLength n ≤ 6 := by omega
  have : (2:Nat) ^ bitLength n ≤ 2 ^ 6 := Nat.pow_le_pow_right (by norm_num) hble
  norm_num at this
  omega

theorem size_class_of_gt {n : Nat} (h : 64 < n) :
    size_class n = 4 * bitLength n + (n - 1) / 2 ^ (bitLength n - 3) - 27 := by
  unfold size_class
  rw [if_neg (by omega), Nat.shiftRight_eq_div_pow]

theorem q_bounds {n : Nat} (h : 64 < n) :
    3 ≤ (n - 1) / 2 ^ (bitLength n - 3) ∧ (n - 1) / 2 ^ (bitLength n - 3) ≤ 7 := by
  have hb7 := bitLength_ge_seven h
  obtain ⟨h1, h2, h3⟩ := bitLength_spec (by omega : 0 < n)
  set b := bitLength n with hbdef
  have hsplit : b - 3 + 2 = b - 1 := by omega
  have hpow : (2:Nat) ^ (b - 1) = 2 ^ (b - 3) * 4 := by
    rw [← hsplit, pow_add]; norm_num
  have hsplit' : b - 3 + 3 = b := by omega
  have hpow' : (2:Nat) ^ b = 2 ^ (b - 3) * 8 := by
    rw [← hsplit', pow_add]; norm_num
  have hd : 0 < (2:Nat) ^ (b - 3) := Nat.pos_pow_of_pos _ (by norm_num)
  constructor
  · exact (Nat.le_div_iff_mul_le hd).2 (by omega)
  · have : (n - 1) / 2 ^ (b - 3) < 8 := by
      rw [Nat.div_lt_iff_lt_mul hd]
      omega
    omega

theorem succ_div_le (m d : Nat) : (m + 1) / d ≤ m / d + 1 := by
  rcases Nat.eq_zero_or_pos d with rfl | hd
  · simp
  · calc (m + 1) / d ≤ (m + d) / d := Nat.div_le_div_right (by omega)
    _ = m / d + 1 := Nat.add_div_right m hd

theorem size_class_step {n : Nat} (h : 64 < n) :
    size_class n ≤ size_class (n + 1) ∧ size_class (n + 1) ≤ size_class n + 1 := by
  have hb7 := bitLength_ge_seven h
  obtain ⟨h1, h2, h3⟩ := bitLength_spec (by omega : 0 < n)
  set b := bitLength n with hbdef
  have hd : 0 < (2:Nat) ^ (b - 3) := Nat.pos_pow_of_pos _ (by norm_num)
  have hsplit' : b - 3 + 3 = b := by omega
  have hpow' : (2:Nat) ^ b = 2 ^ (b - 3) * 8 := by
    rw [← hsplit', pow_add]; norm_num
  have hsplit : b - 3 + 2 = b - 1 := by omega
  have hpow : (2:Nat) ^ (b - 1) = 2 ^ (b - 3) * 4 := by
    rw [← hsplit, pow_add]; norm_num
  rw [size_class_of_gt h, size_class_of_gt (by omega : 64 < n + 1)]
  by_cases hcross : n + 1 < 2 ^ b
  · have hb' : bitLength (n + 1) = b := bitLength_eq (by omega) (by omega) hcross
    rw [hb', ← hbdef]
    have hq1 : (n - 1) / 2 ^ (b - 3) ≤ (n + 1 - 1) / 2 ^ (b - 3) :=
      Nat.div_le_div_right (by omega)
    have hq2 : (n + 1 - 1) / 2 ^ (b - 3) ≤ (n - 1) / 2 ^ (b - 3) + 1 := by
      have : n + 1 - 1 = n - 1 + 1 := by omega
      rw [this]
      exact succ_div_le (n - 1) (2 ^ (b - 3))
    obtain ⟨hq3, hq4⟩ := q_bounds h
    rw [← hbdef] at hq3 hq4
    omega
  · have hn1 : n + 1 = 2 ^ b := by omega
    have hb' : bitLength (n + 1) = b + 1 := by
      refine bitLength_eq (by omega) (by simpa using hn1.symm.le) ?_
      rw [pow_succ]
      omega
    rw [hb']
    have hq : (n - 1) / 2 ^ (b - 3) = 7 := by
      refine Nat.div_eq_of_lt_le (by omega) (by omega)
    have hsplit2 : b + 1 - 3 = b - 2 := by omega
    have hsplit3 : b - 2 + 2 = b := by omega
    have hpow2 : (2:Nat) ^ b = 2 ^ (b - 2) * 4 := by
      rw [← hsplit3, pow_add]; norm_num
    have hd2 : 0 < (2:Nat) ^ (b - 2) := Nat.pos_pow_of_pos _ (by norm_num)
    have hq' : (n + 1 - 1) / 2 ^ (b + 1 - 3) = 3 := by
      rw [hsplit2]
      refine Nat.div_eq_of_lt_le (by omega) (by omega)
    rw [hq, hq']
    omega

theorem size_class_table :
    ∀ b < 20, ∀ q < 8, 7 ≤ b → 3 ≤ q →
      classSize (4 * b + q - 27) = (q + 1) * 2 ^ (b - 3) := by decide

theorem size_class_small :
    ∀ n < 65, size_class n = [0, 0, 1, 2, 2, 3, 3, 4, 4].getD ((n + 7) / 8) 0 ∧
      n ≤ classSize (size_class n) ∧
      size_class n ≤ size_class (n + 1) ∧ size_class (n + 1) ≤ size_class n + 1 := by decide

/-- **C7**: the size-class function is monotone and contiguous in `n` (the
class index never skips a value); for `n ≤ 64` it is the fixed lookup keyed
by `(n+7)/8`; for `64 < n ≤ 512 KiB` it is
`4·bit_length(n) + ⌊(n−1) / 2^(bit_length(n)−3)⌋ − 27`; and for every `n` up
to 512 KiB the block size of the selected class is at least `n`. -/
theorem size_class_spec :
    (∀ n, size_class n ≤ size_class (n + 1)) ∧
    (∀ n, size_class (n + 1) ≤ size_class n + 1) ∧
    (∀ n, n ≤ 64 → size_class n = [0, 0, 1, 2, 2, 3, 3, 4, 4].getD ((n + 7) / 8) 0) ∧
    (∀ n, 64 < n → n ≤ 524288 →
      size_class n = 4 * bitLength n + (n - 1) / 2 ^ (bitLength n - 3) - 27) ∧
    (∀ n, n ≤ 524288 → n ≤ classSize (size_class n)) := by
  have hmono : ∀ n, size_class n ≤ size_class (n + 1) ∧
      size_class (n + 1) ≤ size_class n + 1 := by
    intro n
    rcases Nat.lt_or_ge n 65 with hn | hn
    · exact ⟨((size_class_small n hn).2.2).1, ((size_class_small n hn).2.2).2⟩
    · exact size_class_step (by omega)
  refine ⟨fun n => (hmono n).1, fun n => (hmono n).2, ?_, ?_, ?_⟩
  · intro n hn
    exact (size_class_small n (by omega)).1
  · intro n hn _
    exact size_class_of_gt hn
  · intro n hn
    rcases Nat.lt_or_ge n 65 with hsmall | hlarge
    · exact (size_class_small n hsmall).2.1
    · have h64 : 64 < n := by omega
      have hb7 := bitLength_ge_seven h64
      obtain ⟨h1, h2, h3⟩ := bitLength_spec (by omega : 0 < n)
      set b := bitLength n with hbdef
      obtain ⟨hq3, hq4⟩ := q_bounds h64
      rw [← hbdef] at hq3 hq4
      set q := (n - 1) / 2 ^ (b - 3) with hqdef
      have hd : 0 < (2:Nat) ^ (b - 3) := Nat.pos_pow_of_pos _ (by norm_num)
      have hnlt : n - 1 < (q + 1) * 2 ^ (b - 3) := by
        have hexp : (q + 1) * 2 ^ (b - 3) = 2 ^ (b - 3) * q + 2 ^ (b - 3) := by ring
        have hdam := Nat.div_add_mod (n - 1) (2 ^ (b - 3))
        have hmlt := Nat.mod_lt (n - 1) hd
        rw [← hqdef] at hdam
        rw [hexp]
        omega
      rw [size_class_of_gt h64, ← hbdef, ← hqdef]
      by_cases hb20 : b ≤ 19
      · rw [size_class_table b (by omega) q (by omega) hb7 hq3]
        omega
      · -- b = 20 forces n = 2^19 exactly
        have hb20' : b = 20 := by
          have hle : (2:Nat) ^ (b - 1) ≤ 524288 := le_trans h1 hn
          by_contra hc
          have h21 : 21 ≤ b := by omega
          have : (2:Nat) ^ 20 ≤ 2 ^ (b - 1) := Nat.pow_le_pow_right (by norm_num) (by omega)
          norm_num at this
          omega
        have hn' : n = 524288 := by
          have h2b : (2:Nat) ^ (b - 1) = 524288 := by rw [hb20']; norm_num
          omega
        have hq' : q = 3 := by
          rw [hqdef, hn', hb20']
          norm_num
        rw [hq', hb20', hn']
        decide

/-- Witness for C7 at concrete points of each clause. -/
theorem size_class_spec_witness :
    (size_class 100 ≤ size_class 101) ∧
    (size_class 101 ≤ size_class 100 + 1) ∧
    ((60:Nat) ≤ 64 ∧ size_class 60 = [0, 0, 1, 2, 2, 3, 3, 4, 4].getD ((60 + 7) / 8) 0) ∧
    ((64:Nat) < 300000 ∧ (300000:Nat) ≤ 524288 ∧
      size_class 300000
        = 4 * bitLength 300000 + (300000 - 1) / 2 ^ (bitLength 300000 - 3) - 27) ∧
    ((524288:Nat) ≤ 524288 ∧ 524288 ≤ classSize (size_class 524288)) :=
  ⟨size_class_spec.1 100, size_class_spec.2.1 100,
   ⟨by decide, size_class_spec.2.2.1 60 (by decide)⟩,
   ⟨by decide, by decide, size_class_spec.2.2.2.1 300000 (by decide) (by decide)⟩,
   ⟨by decide, size_class_spec.2.2.2.2 524288 (by decide)⟩⟩

/-- **C5** (code-bug exhibit).  In the reachable single-thread state
`c5PreState` (free and local free lists empty, `thread_free = Delayed` with
an empty list), the next allocation on the page reaches source (c): the CAS
from `Normal` fails, the code swaps `thread_free` back and recovers the head
`3 & !7 = 0`, feeding null to `NonNull::new_unchecked` — despite the
adjacent SAFETY comment "We checked that it isn't zero".  The allocation
then increments `used`, overwrites `page.free` with memory read from
address 0, and returns the null head as the block, so the distinctness,
alignment and size guarantees claimed for the heap cannot be maintained
from this state on. -/
theorem heap_thread_free_null_recovery :
    c5PreState.free = [] ∧ c5PreState.localFree = [] ∧ c5PreState.threadFree = 3 ∧
    (pageBlockSource c5PreState).1 = some 0 ∧
    (pageBlockSource c5PreState).2.ubNullRecovered = true := by decide

end Malloc
